import Mathlib

/-!
Shallow embedding of `src/archiver.rs` (micropak-rs).

Modelling conventions:
* A Rust `String` is its UTF-8 byte sequence, `Str := List Nat` (each element a
  byte value).  Rust guarantees a `String` is valid UTF-8; theorems carry that
  as an explicit `validUtf8` hypothesis where it matters.
* A Rust `PathBuf` is its list of components, `PathBuf := List Str`;
  `Path::starts_with` / `strip_prefix` / equality in Rust operate on
  components, which `List.isPrefixOf` / `List.drop` / `=` mirror.  The byte
  form of a path (what `Path::to_str` inspects) is the components joined by
  the separator byte 47, `joinPath`; `PathBuf::from(string)` splits on 47,
  `splitPath`.
* `u64` values are `Nat`; writing one as little-endian bytes truncates to 8
  bytes (`natToLE 8`), exactly like `as u64` + `to_le_bytes`.
* Files are byte lists; a `read_exact`/slice-out-of-range panic or an
  `expect` panic is modelled by `Option`/`Except` failure.
* `HashMap` tag iteration order is modelled by the order of the tag list; the
  parsed map is modelled by the list of inserted pairs in insertion order.
-/

abbrev Str : Type := List Nat

abbrev PathBuf : Type := List Str

/-- Little-endian encoding of `n` into exactly `w` bytes (truncating like
`n as u64` followed by `to_le_bytes` when `w = 8`). -/
def natToLE : Nat → Nat → List Nat
  | 0, _ => []
  | w + 1, n => n % 256 :: natToLE w (n / 256)

/-- Value of a little-endian byte list (`u64::from_le_bytes`). -/
def fromLE (l : List Nat) : Nat :=
  l.foldr (fun b acc => b + 256 * acc) 0

/-- UTF-8 continuation byte test (second through fourth bytes of a sequence). -/
def isCont (b : Nat) : Bool :=
  decide (0x80 ≤ b ∧ b ≤ 0xBF)

/-- Allowed second byte of a three-byte UTF-8 sequence with lead byte `a`. -/
def okByte3 (a b : Nat) : Bool :=
  if a = 0xE0 then decide (0xA0 ≤ b ∧ b ≤ 0xBF)
  else if a = 0xED then decide (0x80 ≤ b ∧ b ≤ 0x9F)
  else isCont b

/-- Allowed second byte of a four-byte UTF-8 sequence with lead byte `a`. -/
def okByte4 (a b : Nat) : Bool :=
  if a = 0xF0 then decide (0x90 ≤ b ∧ b ≤ 0xBF)
  else if a = 0xF4 then decide (0x80 ≤ b ∧ b ≤ 0x8F)
  else isCont b

/-- Validity of a byte list as UTF-8, with the exact shortest-form and
surrogate-excluding ranges that `String::from_utf8` checks. -/
def validUtf8 : List Nat → Bool
  | [] => true
  | a :: l =>
    if a ≤ 0x7F then validUtf8 l
    else if 0xC2 ≤ a ∧ a ≤ 0xDF then
      match l with
      | b :: l2 => isCont b && validUtf8 l2
      | [] => false
    else if a = 0xE0 ∨ (0xE1 ≤ a ∧ a ≤ 0xEF) then
      match l with
      | b :: c :: l3 => okByte3 a b && isCont c && validUtf8 l3
      | _ => false
    else if 0xF0 ≤ a ∧ a ≤ 0xF4 then
      match l with
      | b :: c :: d :: l4 => okByte4 a b && isCont c && isCont d && validUtf8 l4
      | _ => false
    else false

/-- Model of `sized_bit_string`: the length of the string as 8 little-endian
bytes followed by the string bytes. -/
def sized_bit_string (s : Str) : List Nat :=
  natToLE 8 s.length ++ s

/-- Model of `read_sized_bit_string`: read an 8-byte little-endian length at
`i`, then that many bytes; a slice out of range is a panic (`none`); invalid
UTF-8 contents yield the empty string but still advance the cursor.  The
returned cursor is the updated `*index`. -/
def read_sized_bit_string (buffer : List Nat) (i : Nat) : Option (Str × Nat) :=
  if 8 ≤ (buffer.drop i).length then
    let len := fromLE ((buffer.drop i).take 8)
    if len ≤ ((buffer.drop i).drop 8).length then
      let contents := ((buffer.drop i).drop 8).take len
      some (if validUtf8 contents then contents else [], i + 8 + len)
    else none
  else none

/-- One 8-byte little-endian read from `buffer` at `i`
(`u64::from_le_bytes` over `buffer[i..i + 8]`); out of range is a panic. -/
def readU64 (buffer : List Nat) (i : Nat) : Option (Nat × Nat) :=
  if 8 ≤ (buffer.drop i).length then
    some (fromLE ((buffer.drop i).take 8), i + 8)
  else none

/-- Byte form of a path: components joined by the separator byte 47. -/
def joinPath (p : PathBuf) : Str :=
  List.intercalate [47] p

/-- Model of `PathBuf::from(string)`: split the byte string on 47. -/
def splitPath (s : Str) : PathBuf :=
  s.splitOn 47

/-- Model of `Path::to_str`: the byte form if it is valid UTF-8. -/
def pathToStr (p : PathBuf) : Option Str :=
  if validUtf8 (joinPath p) then some (joinPath p) else none

/-- The relative-path loop of `gen_header` (lines 93-98): starting from the
entry path itself, every root that the path strictly descends from
overwrites `relative_path` with the stripped remainder; the last matching
root in `root_paths` order wins. -/
def relativize (root_paths : List PathBuf) (p : PathBuf) : PathBuf :=
  root_paths.foldl
    (fun rel root => if root.isPrefixOf p ∧ p ≠ root then p.drop root.length else rel) p

structure FileEntry where
  path : PathBuf
  size : Nat
deriving DecidableEq

structure Header where
  version : Nat
  tags : List (Str × Str)
  entries : List FileEntry
  size : Nat
deriving DecidableEq

/-- Per-entry step of the `gen_header` loop: the 8 size bytes are written
first; only then is the relative path converted, and on failure the loop
continues, leaving the already-written size bytes in `data` and recording
the path in `failed`. -/
def genEntryStep (root_paths : List PathBuf) (acc : List Nat × List PathBuf)
    (e : FileEntry) : List Nat × List PathBuf :=
  let withSize := acc.1 ++ natToLE 8 e.size
  match pathToStr (relativize root_paths e.path) with
  | none => (withSize, acc.2 ++ [e.path])
  | some s => (withSize ++ sized_bit_string s, acc.2)

/-- Model of the final `data.splice(1..9, data.len())` of `gen_header`:
overwrite bytes 1..9 with the total length of `data`. -/
def spliceSize (l : List Nat) : List Nat :=
  l.take 1 ++ natToLE 8 l.length ++ l.drop 9

/-- Serialized form of the tag table of `gen_header`: for each pair, the sized
key then the sized value, in iteration order. -/
def tagsBytes (ts : List (Str × Str)) : List Nat :=
  ts.flatMap (fun t => sized_bit_string t.1 ++ sized_bit_string t.2)

/-- Serialized form of one successfully converted entry: 8 size bytes then the
sized relative-path string. -/
def entryBytesOf (w : Nat × Str) : List Nat :=
  natToLE 8 w.1 ++ sized_bit_string w.2

/-- Serialized form of a list of `(size, relative path string)` pairs. -/
def entriesBytes (ws : List (Nat × Str)) : List Nat :=
  ws.flatMap entryBytesOf

/-- Model of `gen_header`: version byte, 8 reserved size bytes, tag count,
sized key/value pairs, entry count (the length of `header.entries`, written
before any path conversion is attempted), then per entry the size bytes and,
when conversion succeeds, the sized relative path; finally the total length
is spliced over the reserved bytes.  Returns the bytes and the failed
paths. -/
def gen_header (h : Header) (root_paths : List PathBuf) : List Nat × List PathBuf :=
  let start := (h.version % 256) ::
    (natToLE 8 0 ++ natToLE 8 h.tags.length ++ tagsBytes h.tags ++ natToLE 8 h.entries.length)
  let folded := h.entries.foldl (genEntryStep root_paths) (start, [])
  (spliceSize folded.1, folded.2)

/-- The header body (everything after the version byte and the 8 size bytes)
that `gen_header` produces when every entry path converts: tag count, tag
pairs, entry count, and the per-entry size + sized relative path blocks. -/
def headerBody (h : Header) (roots : List PathBuf) : List Nat :=
  natToLE 8 h.tags.length ++ tagsBytes h.tags ++ natToLE 8 h.entries.length
    ++ entriesBytes (h.entries.map (fun e => (e.size, joinPath (relativize roots e.path))))

inductive ReadErr where
  | infoRead : ReadErr
  | versionUnsupported : Nat → ReadErr
  | truncated : ReadErr
deriving DecidableEq

def SUPPORTED_ARCHIVE_VERSIONS : List Nat := [1]

/-- The tag loop of `read_header`: `n` iterations, each reading a sized key
then a sized value; pairs are inserted into the map in read order. -/
def parseTags : Nat → List Nat → Nat → Option (List (Str × Str) × Nat)
  | 0, _, i => some ([], i)
  | n + 1, buffer, i =>
    match read_sized_bit_string buffer i with
    | none => none
    | some (k, i1) =>
      match read_sized_bit_string buffer i1 with
      | none => none
      | some (v, i2) =>
        match parseTags n buffer i2 with
        | none => none
        | some (ts, i3) => some ((k, v) :: ts, i3)

/-- The entry loop of `read_header`: `n` iterations, each reading an 8-byte
size then a sized path string, turned into a `FileEntry` via
`PathBuf::from`. -/
def parseEntries : Nat → List Nat → Nat → Option (List FileEntry × Nat)
  | 0, _, i => some ([], i)
  | n + 1, buffer, i =>
    match readU64 buffer i with
    | none => none
    | some (sz, i1) =>
      match read_sized_bit_string buffer i1 with
      | none => none
      | some (s, i2) =>
        match parseEntries n buffer i2 with
        | none => none
        | some (es, i3) => some (⟨splitPath s, sz⟩ :: es, i3)

/-- Model of `read_header` over the byte stream that follows the current file
position.  It requires 9 bytes of version + size (`read_exact`), then reads
up to `size` further bytes into a zero-initialised buffer of length exactly
`size` (`file.read` fills only what is available, the tail stays zero), then
rejects unsupported versions, then parses tags and entries.  Parse panics
(slice out of range) are `truncated`. -/
def read_header (input : List Nat) : Except ReadErr Header :=
  match input with
  | [] => .error .infoRead
  | v :: rest =>
    if 8 ≤ rest.length then
      let size := fromLE (rest.take 8)
      let avail := (rest.drop 8).take size
      let buffer := avail ++ List.replicate (size - avail.length) 0
      if v ∈ SUPPORTED_ARCHIVE_VERSIONS then
        match readU64 buffer 0 with
        | none => .error .truncated
        | some (tagNum, i1) =>
          match parseTags tagNum buffer i1 with
          | none => .error .truncated
          | some (tags, i2) =>
            match readU64 buffer i2 with
            | none => .error .truncated
            | some (fileNum, i3) =>
              match parseEntries fileNum buffer i3 with
              | none => .error .truncated
              | some (entries, _) => .ok ⟨v, tags, entries, size⟩
      else .error (.versionUnsupported v)
    else .error .infoRead

def MAX_BUFFER_SIZE : Nat := 2000000000

/-- The chunk loop shared by `buffered_copy` and `append_to_archive`: starting
from `remaining = size`, while `remaining > max` read a chunk of `max` bytes
at relative offset `size - remaining`, then one final chunk of `remaining`
bytes.  Returns the list of `(relative offset, chunk length)` pairs, each
length also being the size of the buffer allocated for that chunk.  The
`fuel` argument only makes the recursion structural; with `fuel = size` and
`max ≥ 1` the zero-fuel base case is never reached, and it returns the same
final chunk the loop would. -/
def chunksGo (max size : Nat) : Nat → Nat → List (Nat × Nat)
  | 0, remaining => [(size - remaining, remaining)]
  | fuel + 1, remaining =>
    if max < remaining then (size - remaining, max) :: chunksGo max size fuel (remaining - max)
    else [(size - remaining, remaining)]

/-- Chunk layout of a transfer of `size` bytes with the configured
`MAX_BUFFER_SIZE` ceiling. -/
def copyChunks (size : Nat) : List (Nat × Nat) :=
  chunksGo MAX_BUFFER_SIZE size size size

/-- Model of `buffered_copy`: read every chunk with `read_exact` at absolute
offset `index + relative offset` (a short read is an error, aborting the
whole copy), pass it through `modify`, and append it to the output; on
success `*index` has advanced by `size`.  Returns the bytes written and the
updated index. -/
def buffered_copy (file : List Nat) (modify : List Nat → List Nat)
    (index size : Nat) : Option (List Nat × Nat) :=
  let cs := copyChunks size
  if ∀ c ∈ cs, index + c.1 + c.2 ≤ file.length then
    some ((cs.flatMap (fun c => modify ((file.drop (index + c.1)).take c.2)), index + size))
  else none

/-- Model of `append_to_archive`: the same chunk loop over a whole source file
(`size` is the file length from metadata, chunks start at offset 0); the
transformed chunks are appended to the archive file in order. -/
def append_to_archive (file : List Nat) (modify : List Nat → List Nat) : List Nat :=
  (copyChunks file.length).flatMap (fun c => modify ((file.drop c.1).take c.2))

/-- The entry loop of `extract_from_archive`: `index` starts at the end of the
header and `buffered_copy` runs only for entries whose path equals the
target, so only those calls advance `index`; a non-matching entry leaves
`index` unchanged.  `out` accumulates the bytes written to the single
destination file. -/
def extractOneGo (file : List Nat) (modify : List Nat → List Nat) (target : PathBuf) :
    List FileEntry → Nat → List Nat → Option (List Nat)
  | [], _, out => some out
  | e :: es, index, out =>
    if e.path = target then
      match buffered_copy file modify index e.size with
      | none => none
      | some (bytes, index2) => extractOneGo file modify target es index2 (out ++ bytes)
    else
      extractOneGo file modify target es index out

/-- Model of `extract_from_archive` for an archive whose parsed header is `h`
and whose container bytes are `file`. -/
def extract_from_archive (target : PathBuf) (h : Header) (file : List Nat)
    (modify : List Nat → List Nat) : Option (List Nat) :=
  extractOneGo file modify target h.entries h.size []

/-- The entry loop of `extract_all_archive`: `createOk` models whether
`File::create` succeeds for the destination of a given entry path; on
failure the loop continues with the next entry without calling
`buffered_copy`, so `index` does not advance.  The result pairs each
successfully created destination with the bytes copied into it; a
`buffered_copy` failure aborts the whole extraction. -/
def extractAllGo (file : List Nat) (modify : List Nat → List Nat)
    (createOk : PathBuf → Bool) :
    List FileEntry → Nat → Option (List (PathBuf × List Nat))
  | [], _ => some []
  | e :: es, index =>
    if createOk e.path then
      match buffered_copy file modify index e.size with
      | none => none
      | some (bytes, index2) =>
        match extractAllGo file modify createOk es index2 with
        | none => none
        | some rest => some ((e.path, bytes) :: rest)
    else
      extractAllGo file modify createOk es index

/-- Model of `extract_all_archive` with `index` initialised to
`header.size`. -/
def extract_all_archive (h : Header) (file : List Nat) (createOk : PathBuf → Bool)
    (modify : List Nat → List Nat) : Option (List (PathBuf × List Nat)) :=
  extractAllGo file modify createOk h.entries h.size

/-- Model of `expand_paths`.  The per-root filesystem walk `expand_path` is
abstracted by `reach` (`none` is an `Err` from the walk, which skips that
root with a diagnostic); the function itself contributes the dedup loop:
every reached path is appended unless already present. -/
def expand_paths (reach : PathBuf → Option (List PathBuf)) (input_paths : List PathBuf) :
    List PathBuf :=
  input_paths.foldl
    (fun out r =>
      match reach r with
      | none => out
      | some tree => tree.foldl (fun acc p => if p ∈ acc then acc else acc ++ [p]) out)
    []

/-- Specification-side description of first-seen deduplication: keep each
element of the list exactly at its first occurrence, in order. -/
def firstOccurrences {α : Type} [DecidableEq α] : List α → List α
  | [] => []
  | x :: xs => x :: firstOccurrences (xs.filter (fun y => y ≠ x))
termination_by l => l.length
decreasing_by
  exact Nat.lt_succ_of_le (List.length_filter_le _ _)

instance {ε α : Type} [DecidableEq ε] [DecidableEq α] : DecidableEq (Except ε α) :=
  fun a b =>
    match a, b with
    | .ok x, .ok y =>
      if h : x = y then isTrue (by rw [h]) else isFalse (fun hh => h (Except.ok.inj hh))
    | .ok _, .error _ => isFalse (fun hh => Except.noConfusion hh)
    | .error _, .ok _ => isFalse (fun hh => Except.noConfusion hh)
    | .error x, .error y =>
      if h : x = y then isTrue (by rw [h]) else isFalse (fun hh => h (Except.error.inj hh))

theorem natToLE_length (w n : Nat) : (natToLE w n).length = w := by
  induction w generalizing n with
  | zero => rfl
  | succ w ih => simp [natToLE, ih]

theorem fromLE_nil : fromLE [] = 0 := rfl

theorem fromLE_cons (a : Nat) (l : List Nat) : fromLE (a :: l) = a + 256 * fromLE l := rfl

theorem fromLE_natToLE (w n : Nat) : fromLE (natToLE w n) = n % 256 ^ w := by
  induction w generalizing n with
  | zero => simp [natToLE, fromLE_nil, Nat.mod_one]
  | succ w ih =>
    rw [natToLE, fromLE_cons, ih, pow_succ', Nat.mod_mul]

theorem fromLE_natToLE8 (n : Nat) (hn : n < 2 ^ 64) : fromLE (natToLE 8 n) = n := by
  rw [fromLE_natToLE]
  exact Nat.mod_eq_of_lt (by norm_num at hn ⊢; omega)

theorem sized_bit_string_length (s : Str) : (sized_bit_string s).length = 8 + s.length := by
  simp [sized_bit_string, natToLE_length]

theorem drop_at_append (buffer pre rest : List Nat) (i : Nat)
    (hb : buffer.drop i = pre ++ rest) : buffer.drop (i + pre.length) = rest := by
  rw [← List.drop_drop, hb, List.drop_left]

theorem readU64_at (buffer : List Nat) (i n : Nat) (rest : List Nat)
    (hb : buffer.drop i = natToLE 8 n ++ rest) (hn : n < 2 ^ 64) :
    readU64 buffer i = some (n, i + 8) := by
  have hlen : (natToLE 8 n).length = 8 := natToLE_length 8 n
  rw [readU64, hb]
  rw [List.take_left' hlen]
  have h8 : 8 ≤ (natToLE 8 n ++ rest).length := by
    simp [List.length_append, hlen]
  rw [if_pos h8, fromLE_natToLE8 n hn]

theorem read_sized_at (buffer : List Nat) (i : Nat) (s : Str) (rest : List Nat)
    (hb : buffer.drop i = sized_bit_string s ++ rest)
    (hv : validUtf8 s = true) (hl : s.length < 2 ^ 64) :
    read_sized_bit_string buffer i = some (s, i + 8 + s.length) := by
  have hb' : buffer.drop i = natToLE 8 s.length ++ (s ++ rest) := by
    rw [hb, sized_bit_string, List.append_assoc]
  have hlen : (natToLE 8 s.length).length = 8 := natToLE_length 8 s.length
  rw [read_sized_bit_string, hb']
  have h8 : 8 ≤ (natToLE 8 s.length ++ (s ++ rest)).length := by
    simp [List.length_append, hlen]
  rw [if_pos h8, List.take_left' hlen, List.drop_left' hlen, fromLE_natToLE8 s.length hl]
  have hsl : s.length ≤ (s ++ rest).length := by
    simp [List.length_append]
  rw [if_pos hsl, List.take_left]
  simp [hv]

theorem tagsBytes_cons (t : Str × Str) (ts : List (Str × Str)) :
    tagsBytes (t :: ts) = sized_bit_string t.1 ++ (sized_bit_string t.2 ++ tagsBytes ts) := by
  simp [tagsBytes, List.append_assoc]

theorem parseTags_at (ts : List (Str × Str)) (buffer : List Nat) (i : Nat) (rest : List Nat)
    (hb : buffer.drop i = tagsBytes ts ++ rest)
    (hv : ∀ t ∈ ts, validUtf8 t.1 = true ∧ validUtf8 t.2 = true ∧
      t.1.length < 2 ^ 64 ∧ t.2.length < 2 ^ 64) :
    parseTags ts.length buffer i = some (ts, i + (tagsBytes ts).length) := by
  induction ts generalizing i rest with
  | nil =>
    simp [tagsBytes] at hb ⊢
    simp [parseTags]
  | cons t ts ih =>
    obtain ⟨hv1, hv2, hl1, hl2⟩ := hv t (by simp)
    have hb1 : buffer.drop i = sized_bit_string t.1 ++ (sized_bit_string t.2 ++ (tagsBytes ts ++ rest)) := by
      rw [hb, tagsBytes_cons]
      simp [List.append_assoc]
    have hk := read_sized_at buffer i t.1 (sized_bit_string t.2 ++ (tagsBytes ts ++ rest)) hb1 hv1 hl1
    have hd1 : buffer.drop (i + (8 + t.1.length)) = sized_bit_string t.2 ++ (tagsBytes ts ++ rest) := by
      have := drop_at_append buffer (sized_bit_string t.1) _ i hb1
      rwa [sized_bit_string_length] at this
    have hv' := read_sized_at buffer (i + (8 + t.1.length)) t.2 (tagsBytes ts ++ rest) hd1 hv2 hl2
    have hd2 : buffer.drop (i + (8 + t.1.length) + (8 + t.2.length)) = tagsBytes ts ++ rest := by
      have := drop_at_append buffer (sized_bit_string t.2) _ (i + (8 + t.1.length)) hd1
      rwa [sized_bit_string_length] at this
    have hrec := ih (i + (8 + t.1.length) + (8 + t.2.length)) rest hd2
      (fun x hx => hv x (by simp [hx]))
    have harith : i + (8 + t.1.length) + (8 + t.2.length) + (tagsBytes ts).length
        = i + (tagsBytes (t :: ts)).length := by
      rw [tagsBytes_cons]
      simp only [List.length_append, sized_bit_string_length]
      omega
    rw [show i + 8 + t.1.length = i + (8 + t.1.length) by omega] at hk
    rw [show i + (8 + t.1.length) + 8 + t.2.length = i + (8 + t.1.length) + (8 + t.2.length) by omega] at hv'
    show parseTags (ts.length + 1) buffer i = _
    rw [parseTags]
    simp only [hk, hv', hrec, harith]

theorem entriesBytes_cons (w : Nat × Str) (ws : List (Nat × Str)) :
    entriesBytes (w :: ws) = natToLE 8 w.1 ++ (sized_bit_string w.2 ++ entriesBytes ws) := by
  simp [entriesBytes, entryBytesOf, List.append_assoc]

theorem parseEntries_at (ws : List (Nat × Str)) (buffer : List Nat) (i : Nat) (rest : List Nat)
    (hb : buffer.drop i = entriesBytes ws ++ rest)
    (hv : ∀ w ∈ ws, w.1 < 2 ^ 64 ∧ validUtf8 w.2 = true ∧ w.2.length < 2 ^ 64) :
    parseEntries ws.length buffer i
      = some (ws.map (fun w => ⟨splitPath w.2, w.1⟩), i + (entriesBytes ws).length) := by
  induction ws generalizing i rest with
  | nil =>
    simp [entriesBytes] at hb ⊢
    simp [parseEntries]
  | cons w ws ih =>
    obtain ⟨hs, hv1, hl1⟩ := hv w (by simp)
    have hb1 : buffer.drop i = natToLE 8 w.1 ++ (sized_bit_string w.2 ++ (entriesBytes ws ++ rest)) := by
      rw [hb, entriesBytes_cons]
      simp [List.append_assoc]
    have hn := readU64_at buffer i w.1 _ hb1 hs
    have hd1 : buffer.drop (i + 8) = sized_bit_string w.2 ++ (entriesBytes ws ++ rest) := by
      have := drop_at_append buffer (natToLE 8 w.1) _ i hb1
      rwa [natToLE_length] at this
    have hpath := read_sized_at buffer (i + 8) w.2 (entriesBytes ws ++ rest) hd1 hv1 hl1
    have hd2 : buffer.drop (i + 8 + (8 + w.2.length)) = entriesBytes ws ++ rest := by
      have := drop_at_append buffer (sized_bit_string w.2) _ (i + 8) hd1
      rwa [sized_bit_string_length] at this
    have hrec := ih (i + 8 + (8 + w.2.length)) rest hd2 (fun x hx => hv x (by simp [hx]))
    have harith : i + 8 + (8 + w.2.length) + (entriesBytes ws).length
        = i + (entriesBytes (w :: ws)).length := by
      rw [entriesBytes_cons]
      simp only [List.length_append, sized_bit_string_length, natToLE_length]
      omega
    rw [show i + 8 + 8 + w.2.length = i + 8 + (8 + w.2.length) by omega] at hpath
    show parseEntries (ws.length + 1) buffer i = _
    rw [parseEntries]
    simp only [hn, hpath, hrec, harith, List.map_cons]

theorem genEntryFold_ok (roots : List PathBuf) (es : List FileEntry) (d0 : List Nat)
    (f0 : List PathBuf)
    (hok : ∀ e ∈ es, validUtf8 (joinPath (relativize roots e.path)) = true) :
    es.foldl (genEntryStep roots) (d0, f0)
      = (d0 ++ entriesBytes (es.map (fun e => (e.size, joinPath (relativize roots e.path)))), f0) := by
  induction es generalizing d0 with
  | nil => simp [entriesBytes]
  | cons e es ih =>
    have he := hok e (by simp)
    have hstep : genEntryStep roots (d0, f0) e
        = (d0 ++ (natToLE 8 e.size ++ sized_bit_string (joinPath (relativize roots e.path))), f0) := by
      simp [genEntryStep, pathToStr, he, List.append_assoc]
    rw [List.foldl_cons, hstep, ih _ (fun x hx => hok x (by simp [hx]))]
    simp [entriesBytes, entryBytesOf, List.append_assoc]

theorem gen_header_eq (h : Header) (roots : List PathBuf)
    (hok : ∀ e ∈ h.entries, validUtf8 (joinPath (relativize roots e.path)) = true) :
    gen_header h roots
      = ((h.version % 256) ::
          (natToLE 8 (9 + (headerBody h roots).length) ++ headerBody h roots), []) := by
  have hlen0 : (natToLE 8 0).length = 8 := natToLE_length 8 0
  have hfold := genEntryFold_ok roots h.entries
    ((h.version % 256) ::
      (natToLE 8 0 ++ natToLE 8 h.tags.length ++ tagsBytes h.tags ++ natToLE 8 h.entries.length))
    [] hok
  have hM : (natToLE 8 0 ++ natToLE 8 h.tags.length ++ tagsBytes h.tags
        ++ natToLE 8 h.entries.length)
      ++ entriesBytes (h.entries.map (fun e => (e.size, joinPath (relativize roots e.path))))
      = natToLE 8 0 ++ headerBody h roots := by
    simp [headerBody, List.append_assoc]
  have hsplice : spliceSize (h.version % 256 :: (natToLE 8 0 ++ headerBody h roots))
      = h.version % 256 ::
        (natToLE 8 (9 + (headerBody h roots).length) ++ headerBody h roots) := by
    unfold spliceSize
    have h9 : (h.version % 256 :: (natToLE 8 0 ++ headerBody h roots)).drop 9
        = (natToLE 8 0 ++ headerBody h roots).drop 8 := rfl
    have h1 : (h.version % 256 :: (natToLE 8 0 ++ headerBody h roots)).take 1
        = [h.version % 256] := rfl
    have h2 : (h.version % 256 :: (natToLE 8 0 ++ headerBody h roots)).length
        = 9 + (headerBody h roots).length := by
      simp [List.length_cons, List.length_append, hlen0]
      omega
    rw [h9, List.drop_left' hlen0, h1, h2]
    rfl
  simp only [gen_header, hfold, List.cons_append, hM, hsplice]

theorem read_header_gen_header (h : Header) (roots : List PathBuf)
    (hv : h.version = 1)
    (htags : ∀ t ∈ h.tags, validUtf8 t.1 = true ∧ validUtf8 t.2 = true ∧
      t.1.length < 2 ^ 64 ∧ t.2.length < 2 ^ 64)
    (htn : h.tags.length < 2 ^ 64)
    (hen : h.entries.length < 2 ^ 64)
    (hes : ∀ e ∈ h.entries, e.size < 2 ^ 64 ∧
      validUtf8 (joinPath (relativize roots e.path)) = true ∧
      (joinPath (relativize roots e.path)).length < 2 ^ 64 ∧
      relativize roots e.path ≠ [] ∧ ∀ c ∈ relativize roots e.path, 47 ∉ c)
    (hlen : (gen_header h roots).1.length < 2 ^ 64) :
    read_header (gen_header h roots).1
      = .ok ⟨1, h.tags, h.entries.map (fun e => ⟨relativize roots e.path, e.size⟩),
          (gen_header h roots).1.length⟩ := by
  have hok : ∀ e ∈ h.entries, validUtf8 (joinPath (relativize roots e.path)) = true :=
    fun e he => (hes e he).2.1
  have hG := gen_header_eq h roots hok
  rw [hv] at hG
  rw [show (1 : Nat) % 256 = 1 from rfl] at hG
  rw [hG] at hlen ⊢
  have hdl : ((1 : Nat) :: (natToLE 8 (9 + (headerBody h roots).length)
        ++ headerBody h roots)).length = 9 + (headerBody h roots).length := by
    simp [List.length_cons, List.length_append, natToLE_length]
    omega
  rw [hdl]
  rw [hdl] at hlen
  have hL : 9 + (headerBody h roots).length < 2 ^ 64 := hlen
  have hLlen : (natToLE 8 (9 + (headerBody h roots).length)).length = 8 :=
    natToLE_length 8 _
  have hrest8 : 8 ≤ (natToLE 8 (9 + (headerBody h roots).length)
      ++ headerBody h roots).length := by
    simp [List.length_append, hLlen]
  have hsize : fromLE ((natToLE 8 (9 + (headerBody h roots).length)
      ++ headerBody h roots).take 8) = 9 + (headerBody h roots).length := by
    rw [List.take_left' hLlen, fromLE_natToLE8 _ hL]
  have hdrop : (natToLE 8 (9 + (headerBody h roots).length)
      ++ headerBody h roots).drop 8 = headerBody h roots := List.drop_left' hLlen
  have htake : (headerBody h roots).take (9 + (headerBody h roots).length)
      = headerBody h roots := List.take_of_length_le (by omega)
  have hone : (1 : Nat) ∈ SUPPORTED_ARCHIVE_VERSIONS := by
    simp [SUPPORTED_ARCHIVE_VERSIONS]
  simp only [read_header, hrest8, if_true, hsize, hdrop, htake, hone]
  have hb0 : (headerBody h roots
        ++ List.replicate (9 + (headerBody h roots).length - (headerBody h roots).length) 0).drop 0
      = natToLE 8 h.tags.length ++ (tagsBytes h.tags ++ (natToLE 8 h.entries.length
        ++ (entriesBytes (h.entries.map (fun e => (e.size, joinPath (relativize roots e.path))))
          ++ List.replicate (9 + (headerBody h roots).length - (headerBody h roots).length) 0))) := by
    simp [headerBody, List.append_assoc]
  have h1 : readU64 (headerBody h roots
        ++ List.replicate (9 + (headerBody h roots).length - (headerBody h roots).length) 0) 0
      = some (h.tags.length, 8) := by
    simpa using readU64_at _ 0 h.tags.length _ hb0 htn
  have hd1 := drop_at_append _ _ _ 0 hb0
  rw [natToLE_length] at hd1
  rw [show (0 + 8 : Nat) = 8 from rfl] at hd1
  have h2 : parseTags h.tags.length (headerBody h roots
        ++ List.replicate (9 + (headerBody h roots).length - (headerBody h roots).length) 0) 8
      = some (h.tags, 8 + (tagsBytes h.tags).length) :=
    parseTags_at h.tags _ 8 _ hd1 htags
  have hd2 := drop_at_append _ _ _ 8 hd1
  have h3 : readU64 (headerBody h roots
        ++ List.replicate (9 + (headerBody h roots).length - (headerBody h roots).length) 0)
        (8 + (tagsBytes h.tags).length)
      = some (h.entries.length, 8 + (tagsBytes h.tags).length + 8) :=
    readU64_at _ _ h.entries.length _ hd2 hen
  have hd3 := drop_at_append _ _ _ (8 + (tagsBytes h.tags).length) hd2
  rw [natToLE_length] at hd3
  have hws : ∀ w ∈ h.entries.map (fun e => (e.size, joinPath (relativize roots e.path))),
      w.1 < 2 ^ 64 ∧ validUtf8 w.2 = true ∧ w.2.length < 2 ^ 64 := by
    intro w hw
    rw [List.mem_map] at hw
    obtain ⟨e, he, hew⟩ := hw
    subst hew
    exact ⟨(hes e he).1, (hes e he).2.1, (hes e he).2.2.1⟩
  have h4 : parseEntries h.entries.length (headerBody h roots
        ++ List.replicate (9 + (headerBody h roots).length - (headerBody h roots).length) 0)
        (8 + (tagsBytes h.tags).length + 8)
      = some ((h.entries.map (fun e => (e.size, joinPath (relativize roots e.path)))).map
          (fun w => ⟨splitPath w.2, w.1⟩),
        8 + (tagsBytes h.tags).length + 8
          + (entriesBytes (h.entries.map
              (fun e => (e.size, joinPath (relativize roots e.path))))).length) := by
    have := parseEntries_at
      (h.entries.map (fun e => (e.size, joinPath (relativize roots e.path)))) _
      (8 + (tagsBytes h.tags).length + 8) _ hd3 hws
    rwa [List.length_map] at this
  simp only [h1, h2, h3, h4]
  have hmap : (h.entries.map (fun e => (e.size, joinPath (relativize roots e.path)))).map
        (fun w => (⟨splitPath w.2, w.1⟩ : FileEntry))
      = h.entries.map (fun e => ⟨relativize roots e.path, e.size⟩) := by
    rw [List.map_map]
    apply List.map_congr_left
    intro e he
    have hsplit : splitPath (joinPath (relativize roots e.path)) = relativize roots e.path := by
      unfold splitPath joinPath
      exact List.splitOn_intercalate _ 47 (hes e he).2.2.2.2 (hes e he).2.2.2.1
    simp [Function.comp, hsplit]
  rw [hmap]

theorem chunksGo_spec (max size : Nat) (hmax : 0 < max) :
    ∀ fuel remaining, remaining ≤ fuel → remaining ≤ size →
      (∀ c ∈ chunksGo max size fuel remaining, c.2 ≤ max) ∧
      (∀ c ∈ chunksGo max size fuel remaining, c.1 + c.2 ≤ size) ∧
      (∀ (file : List Nat) (index : Nat),
        (chunksGo max size fuel remaining).flatMap
            (fun c => (file.drop (index + c.1)).take c.2)
          = (file.drop (index + (size - remaining))).take remaining) := by
  intro fuel
  induction fuel with
  | zero =>
    intro remaining hf hs
    have h0 : remaining = 0 := Nat.le_zero.mp hf
    subst h0
    refine ⟨?_, ?_, ?_⟩
    · intro c hc
      simp [chunksGo] at hc
      simp [hc]
    · intro c hc
      simp [chunksGo] at hc
      simp [hc]
    · intro file index
      simp [chunksGo]
  | succ fuel ih =>
    intro remaining hf hs
    by_cases hlt : max < remaining
    · have hrec := ih (remaining - max) (by omega) (by omega)
      have hgo : chunksGo max size (fuel + 1) remaining
          = (size - remaining, max) :: chunksGo max size fuel (remaining - max) := by
        rw [chunksGo, if_pos hlt]
      refine ⟨?_, ?_, ?_⟩
      · intro c hc
        rw [hgo] at hc
        rcases List.mem_cons.mp hc with hh | ht
        · subst hh
          exact le_rfl
        · exact hrec.1 c ht
      · intro c hc
        rw [hgo] at hc
        rcases List.mem_cons.mp hc with hh | ht
        · subst hh
          simp
          omega
        · exact hrec.2.1 c ht
      · intro file index
        rw [hgo, List.flatMap_cons, hrec.2.2 file index]
        have harith : index + (size - (remaining - max)) = index + (size - remaining) + max := by
          omega
        rw [harith]
        have hdd : file.drop (index + (size - remaining) + max)
            = (file.drop (index + (size - remaining))).drop max := by
          rw [List.drop_drop]
        rw [hdd]
        have htk : remaining = max + (remaining - max) := by omega
        conv =>
          rhs
          rw [htk]
        rw [List.take_add]
        have h2 : size - (max + (remaining - max)) = size - remaining := by omega
        rw [h2]
    · have hgo : chunksGo max size (fuel + 1) remaining = [(size - remaining, remaining)] := by
        rw [chunksGo, if_neg hlt]
      refine ⟨?_, ?_, ?_⟩
      · intro c hc
        rw [hgo] at hc
        simp at hc
        subst hc
        simp
        omega
      · intro c hc
        rw [hgo] at hc
        simp at hc
        subst hc
        simp
        omega
      · intro file index
        rw [hgo]
        simp

theorem foldl_dedup_push (xs : List PathBuf) (acc : List PathBuf) :
    xs.foldl (fun out p => if p ∈ out then out else out ++ [p]) acc
      = acc ++ firstOccurrences (xs.filter (fun y => y ∉ acc)) := by
  induction xs generalizing acc with
  | nil => simp [firstOccurrences]
  | cons x xs ih =>
    by_cases hx : x ∈ acc
    · rw [List.foldl_cons, if_pos hx, ih]
      have hfilter : (x :: xs).filter (fun y => decide (y ∉ acc))
          = xs.filter (fun y => decide (y ∉ acc)) := by
        simp [List.filter_cons, hx]
      rw [hfilter]
    · rw [List.foldl_cons, if_neg hx, ih]
      have hfilter : (x :: xs).filter (fun y => decide (y ∉ acc))
          = x :: xs.filter (fun y => decide (y ∉ acc)) := by
        simp [List.filter_cons, hx]
      rw [hfilter, firstOccurrences]
      have hpred : xs.filter (fun y => decide (y ∉ acc ++ [x]))
          = (xs.filter (fun y => decide (y ∉ acc))).filter (fun y => decide (y ≠ x)) := by
        rw [List.filter_filter]
        apply List.filter_congr
        intro y _
        by_cases h1 : y = x <;> by_cases h2 : y ∈ acc <;> simp [h1, h2]
      rw [hpred]
      simp [List.append_assoc]

theorem mem_firstOccurrences {α : Type} [DecidableEq α] :
    ∀ (n : Nat) (l : List α), l.length ≤ n → ∀ a, (a ∈ firstOccurrences l ↔ a ∈ l) := by
  intro n
  induction n with
  | zero =>
    intro l hl a
    have : l = [] := List.eq_nil_of_length_eq_zero (Nat.le_zero.mp hl)
    subst this
    simp [firstOccurrences]
  | succ n ih =>
    intro l hl a
    match l with
    | [] => simp [firstOccurrences]
    | x :: xs =>
      rw [firstOccurrences]
      have hlen : (xs.filter (fun y => decide (y ≠ x))).length ≤ n := by
        have h1 := List.length_filter_le (fun y => decide (y ≠ x)) xs
        simp at hl
        omega
      rw [List.mem_cons, List.mem_cons, ih _ hlen a, List.mem_filter]
      by_cases hax : a = x
      · simp [hax]
      · simp [hax]

theorem nodup_firstOccurrences {α : Type} [DecidableEq α] :
    ∀ (n : Nat) (l : List α), l.length ≤ n → (firstOccurrences l).Nodup := by
  intro n
  induction n with
  | zero =>
    intro l hl
    have : l = [] := List.eq_nil_of_length_eq_zero (Nat.le_zero.mp hl)
    subst this
    simp [firstOccurrences]
  | succ n ih =>
    intro l hl
    match l with
    | [] => simp [firstOccurrences]
    | x :: xs =>
      rw [firstOccurrences]
      have hlen : (xs.filter (fun y => decide (y ≠ x))).length ≤ n := by
        have h1 := List.length_filter_le (fun y => decide (y ≠ x)) xs
        simp at hl
        omega
      refine List.Nodup.cons ?_ (ih _ hlen)
      intro hmem
      have := (mem_firstOccurrences n _ hlen x).mp hmem
      rw [List.mem_filter] at this
      simp at this

theorem expandFold_eq (reach : PathBuf → Option (List PathBuf)) (roots : List PathBuf)
    (acc : List PathBuf) :
    roots.foldl
      (fun out r =>
        match reach r with
        | none => out
        | some tree => tree.foldl (fun a p => if p ∈ a then a else a ++ [p]) out)
      acc
      = (roots.flatMap (fun r => (reach r).getD [])).foldl
          (fun a p => if p ∈ a then a else a ++ [p]) acc := by
  induction roots generalizing acc with
  | nil => simp
  | cons r rs ih =>
    rw [List.foldl_cons, List.flatMap_cons, List.foldl_append]
    cases hreach : reach r with
    | none => rw [ih]; simp [hreach]
    | some tree => rw [ih]; simp [hreach]

theorem count_eq_one_of_nodup_mem (l : List PathBuf) (p : PathBuf)
    (hn : l.Nodup) (hm : p ∈ l) : l.count p = 1 := by
  induction l with
  | nil => simp at hm
  | cons x xs ih =>
    rw [List.count_cons]
    rcases List.mem_cons.mp hm with h | h
    · subst h
      have hx : p ∉ xs := (List.nodup_cons.mp hn).1
      rw [List.count_eq_zero.mpr hx]
      simp
    · have hx : x ∉ xs := (List.nodup_cons.mp hn).1
      have hne : x ≠ p := fun hcontra => hx (hcontra ▸ h)
      have hbeq : (x == p) = false := by simp [hne]
      rw [ih (List.nodup_cons.mp hn).2 h, hbeq]
      simp

/-- Claim C9: in `gen_header`, when an entry path is a strict descendant of
more than one root, the prefix stripped is the one of the last matching root
in `root_paths` order (each later match overwrites the earlier relative
path); a path equal to a root, or a descendant of no root, is recorded as
given.  Formally: the relative path equals the original path when no root
strictly prefixes it, and otherwise equals the path with the last strictly
prefixing root removed. -/
theorem relativize_last_matching_root (root_paths : List PathBuf) (p : PathBuf) :
    relativize root_paths p
      = ((root_paths.filter (fun r => decide (r.isPrefixOf p ∧ p ≠ r))).getLast?).elim
          p (fun r => p.drop r.length) := by
  induction root_paths using List.reverseRecOn with
  | nil => simp [relativize]
  | append_singleton rs r ih =>
    unfold relativize at ih ⊢
    rw [List.foldl_append, List.foldl_cons, List.foldl_nil, List.filter_append]
    by_cases hr : r.isPrefixOf p ∧ p ≠ r
    · rw [if_pos hr]
      have hf : List.filter (fun r => decide (r.isPrefixOf p ∧ p ≠ r)) [r] = [r] := by
        simp only [List.filter_cons, List.filter_nil]
        rw [if_pos (by simpa using hr)]
      rw [hf, List.getLast?_concat]
      rfl
    · rw [if_neg hr]
      have hf : List.filter (fun r => decide (r.isPrefixOf p ∧ p ≠ r)) [r] = [] := by
        simp only [List.filter_cons, List.filter_nil]
        rw [if_neg (by simpa using hr)]
      rw [hf, List.append_nil]
      exact ih

/-- Claim C5: for every UTF-8 string `s` (a Rust `String` has byte length
below `2 ^ 64`), decoding the sized-string encoding of `s` at cursor
position 0 returns `s`, and the cursor is advanced by exactly
`8 + (byte length of s)`. -/
theorem sized_bit_string_roundtrip (s : Str) (hv : validUtf8 s = true)
    (hl : s.length < 2 ^ 64) :
    read_sized_bit_string (sized_bit_string s) 0 = some (s, 8 + s.length) := by
  have hb : (sized_bit_string s).drop 0 = sized_bit_string s ++ [] := by simp
  simpa using read_sized_at (sized_bit_string s) 0 s [] hb hv hl

theorem sized_bit_string_roundtrip_witness :
    (validUtf8 [104, 195, 169, 108, 108, 111] = true ∧
      read_sized_bit_string (sized_bit_string [104, 195, 169, 108, 108, 111]) 0
        = some ([104, 195, 169, 108, 108, 111], 14)) ∧
    read_sized_bit_string (sized_bit_string []) 0 = some ([], 8) := by
  refine ⟨⟨by decide, ?_⟩, ?_⟩
  · simpa using sized_bit_string_roundtrip [104, 195, 169, 108, 108, 111]
      (by decide) (by decide)
  · simpa using sized_bit_string_roundtrip [] (by decide) (by decide)

/-- Claim C7: for a container whose version byte is not in the supported set
(the singleton `[1]`), `read_header` fails fatally: whenever the 9
version + size bytes are readable it reports a version-mismatch error naming
that version, and in no case does it return a parsed header. -/
theorem read_header_unsupported_version (input : List Nat) (v : Nat)
    (hv : input.head? = some v) (hvu : v ∉ SUPPORTED_ARCHIVE_VERSIONS) :
    (9 ≤ input.length → read_header input = .error (.versionUnsupported v)) ∧
    ∀ hd : Header, read_header input ≠ .ok hd := by
  match input with
  | [] => simp at hv
  | w :: rest =>
    have hw : w = v := by simpa using hv
    subst hw
    constructor
    · intro h9
      have h8 : 8 ≤ rest.length := by
        simp at h9
        omega
      simp only [read_header]
      rw [if_pos h8, if_neg hvu]
    · intro hd hcontra
      simp only [read_header] at hcontra
      by_cases h8 : 8 ≤ rest.length
      · rw [if_pos h8, if_neg hvu] at hcontra
        exact Except.noConfusion hcontra
      · rw [if_neg h8] at hcontra
        exact Except.noConfusion hcontra

theorem read_header_unsupported_version_witness :
    read_header [2, 0, 0, 0, 0, 0, 0, 0, 0] = .error (.versionUnsupported 2) :=
  (read_header_unsupported_version [2, 0, 0, 0, 0, 0, 0, 0, 0] 2 rfl
    (by decide)).1 (by decide)

/-- Claim C4 counterexample: for the trivial header (version 1, no tags, no
entries) the serialized data is 25 bytes; the payload region starts right
after the header, at byte offset 25, and the stored header_size field is 25
as well — not the claimed offset minus the 9-byte version + size region
(which would be 16). -/
theorem gen_header_size_field_counterexample :
    fromLE (((gen_header ⟨1, [], [], 0⟩ []).1.drop 1).take 8)
        = (gen_header ⟨1, [], [], 0⟩ []).1.length ∧
    fromLE (((gen_header ⟨1, [], [], 0⟩ []).1.drop 1).take 8)
        ≠ (gen_header ⟨1, [], [], 0⟩ []).1.length - 9 := by
  decide

/-- Claim C4 (amended): after `gen_header`, the value stored in the
header_size field equals the total serialized header length — the byte
offset of the first payload byte, since the payload is appended directly
after the header bytes — not that offset minus the 9-byte version + size
region; and, provided every entry relative path converts to UTF-8 (with the
u64 bounds a Rust `String`/`usize` guarantees, and nonempty paths whose
components do not contain the separator byte), re-parsing the serialized
bytes yields the same version, tags, entry count, and per-entry sizes and
relative paths. -/
theorem gen_header_size_field_and_roundtrip (h : Header) (roots : List PathBuf)
    (hv : h.version = 1)
    (htags : ∀ t ∈ h.tags, validUtf8 t.1 = true ∧ validUtf8 t.2 = true ∧
      t.1.length < 2 ^ 64 ∧ t.2.length < 2 ^ 64)
    (htn : h.tags.length < 2 ^ 64)
    (hen : h.entries.length < 2 ^ 64)
    (hes : ∀ e ∈ h.entries, e.size < 2 ^ 64 ∧
      validUtf8 (joinPath (relativize roots e.path)) = true ∧
      (joinPath (relativize roots e.path)).length < 2 ^ 64 ∧
      relativize roots e.path ≠ [] ∧ ∀ c ∈ relativize roots e.path, 47 ∉ c)
    (hlen : (gen_header h roots).1.length < 2 ^ 64) :
    fromLE (((gen_header h roots).1.drop 1).take 8) = (gen_header h roots).1.length ∧
    read_header (gen_header h roots).1
      = .ok ⟨1, h.tags, h.entries.map (fun e => ⟨relativize roots e.path, e.size⟩),
          (gen_header h roots).1.length⟩ := by
  have hok : ∀ e ∈ h.entries, validUtf8 (joinPath (relativize roots e.path)) = true :=
    fun e he => (hes e he).2.1
  have hG := gen_header_eq h roots hok
  have hL : (gen_header h roots).1.length = 9 + (headerBody h roots).length := by
    rw [hG]
    simp [List.length_cons, List.length_append, natToLE_length]
    omega
  refine ⟨?_, read_header_gen_header h roots hv htags htn hen hes hlen⟩
  have hbound : 9 + (headerBody h roots).length < 2 ^ 64 := by
    rw [hL] at hlen
    exact hlen
  rw [hL]
  simp only [hG]
  have hd1 : ((h.version % 256 :: (natToLE 8 (9 + (headerBody h roots).length)
      ++ headerBody h roots)).drop 1)
      = natToLE 8 (9 + (headerBody h roots).length) ++ headerBody h roots := rfl
  rw [hd1, List.take_left' (natToLE_length 8 _), fromLE_natToLE8 _ hbound]

/-- Claim C4 witness: a concrete header (version 1, one tag, one entry under
one root) whose 60 serialized bytes store 60 in the size field and re-parse
to the same tags and the relativized entry. -/
theorem gen_header_size_field_and_roundtrip_witness :
    fromLE (((gen_header ⟨1, [([107], [118])], [⟨[[97], [98]], 5⟩], 0⟩ [[[97]]]).1.drop 1).take 8)
        = (gen_header ⟨1, [([107], [118])], [⟨[[97], [98]], 5⟩], 0⟩ [[[97]]]).1.length ∧
    read_header (gen_header ⟨1, [([107], [118])], [⟨[[97], [98]], 5⟩], 0⟩ [[[97]]]).1
        = .ok ⟨1, [([107], [118])], [⟨[[98]], 5⟩], 60⟩ := by
  have h := gen_header_size_field_and_roundtrip ⟨1, [([107], [118])], [⟨[[97], [98]], 5⟩], 0⟩
    [[[97]]] rfl (by decide) (by decide) (by decide) (by decide) (by decide)
  refine ⟨h.1, ?_⟩
  rw [h.2]
  decide

/-- Claim C6: the chunk layout of a transfer of `size` bytes never contains a
chunk (hence never allocates a buffer) larger than `MAX_BUFFER_SIZE`, for
every `size` including `MAX_BUFFER_SIZE + 1`; and the concatenation of the
chunks read covers exactly the requested bytes: `buffered_copy` with the
identity transform returns precisely the `size` bytes starting at `index`,
and `append_to_archive` returns the whole source file. -/
theorem chunked_copy_bounded_and_exact (file : List Nat) (index size : Nat) :
    (∀ c ∈ copyChunks size, c.2 ≤ MAX_BUFFER_SIZE) ∧
    (index + size ≤ file.length →
      buffered_copy file id index size = some ((file.drop index).take size, index + size)) ∧
    append_to_archive file id = file := by
  have hspec := chunksGo_spec MAX_BUFFER_SIZE size (by norm_num [MAX_BUFFER_SIZE])
    size size le_rfl le_rfl
  refine ⟨?_, ?_, ?_⟩
  · intro c hc
    exact hspec.1 c hc
  · intro hbound
    have hall : ∀ c ∈ copyChunks size, index + c.1 + c.2 ≤ file.length := by
      intro c hc
      have := hspec.2.1 c hc
      omega
    have hcov := hspec.2.2 file index
    simp only [Nat.sub_self, Nat.add_zero] at hcov
    simp only [copyChunks] at hall
    simp only [buffered_copy, copyChunks]
    rw [if_pos hall]
    simp only [id]
    rw [hcov]
  · have hspec2 := chunksGo_spec MAX_BUFFER_SIZE file.length (by norm_num [MAX_BUFFER_SIZE])
      file.length file.length le_rfl le_rfl
    have hcov := hspec2.2.2 file 0
    simp only [Nat.sub_self, Nat.add_zero, Nat.zero_add, List.drop_zero,
      List.take_length] at hcov
    simp only [append_to_archive, copyChunks, id]
    rw [hcov]

/-- Claim C6 witness: the chunk bound instantiated at
`size = MAX_BUFFER_SIZE + 1`, and the exact-coverage conclusions at a small
concrete transfer. -/
theorem chunked_copy_bounded_and_exact_witness :
    (∀ c ∈ copyChunks (MAX_BUFFER_SIZE + 1), c.2 ≤ MAX_BUFFER_SIZE) ∧
    buffered_copy [5, 6, 7] id 1 2 = some ([6, 7], 3) ∧
    append_to_archive [5, 6, 7] id = [5, 6, 7] := by
  refine ⟨(chunked_copy_bounded_and_exact [] 0 (MAX_BUFFER_SIZE + 1)).1, ?_,
    (chunked_copy_bounded_and_exact [5, 6, 7] 0 3).2.2⟩
  have h := (chunked_copy_bounded_and_exact [5, 6, 7] 1 2).2.1 (by norm_num)
  simpa using h

/-- Claim C8: `expand_paths` returns exactly the first occurrence of every
path reached from any root, in first-seen order across the concatenated
per-root traversals; in particular every reachable path, also one reachable
from more than one root, appears exactly once. -/
theorem expand_paths_dedup_first_seen (reach : PathBuf → Option (List PathBuf))
    (roots : List PathBuf) :
    expand_paths reach roots
      = firstOccurrences (roots.flatMap (fun r => (reach r).getD [])) ∧
    ∀ p ∈ roots.flatMap (fun r => (reach r).getD []),
      (expand_paths reach roots).count p = 1 := by
  have h1 : expand_paths reach roots
      = firstOccurrences (roots.flatMap (fun r => (reach r).getD [])) := by
    unfold expand_paths
    rw [expandFold_eq, foldl_dedup_push]
    simp
  refine ⟨h1, ?_⟩
  intro p hp
  rw [h1]
  have hnodup := nodup_firstOccurrences
    (roots.flatMap (fun r => (reach r).getD [])).length
    (roots.flatMap (fun r => (reach r).getD [])) le_rfl
  have hmem := (mem_firstOccurrences
    (roots.flatMap (fun r => (reach r).getD [])).length
    (roots.flatMap (fun r => (reach r).getD [])) le_rfl p).mpr hp
  exact count_eq_one_of_nodup_mem _ p hnodup hmem

/-- Claim C8 witness: two roots, where the second root also reaches the path
`a/x` already reached from the first; the path appears exactly once in the
expansion. -/
theorem expand_paths_dedup_first_seen_witness :
    (expand_paths
        (fun r => if r = [[97]] then some [[[97], [120]], [[97], [121]]]
          else some [[[97], [120]], [[122]]])
        [[[97]], [[98]]]).count [[97], [120]] = 1 :=
  (expand_paths_dedup_first_seen
    (fun r => if r = [[97]] then some [[[97], [120]], [[97], [121]]]
      else some [[[97], [120]], [[122]]])
    [[[97]], [[98]]]).2 [[97], [120]] (by decide)

/-- Claim C1 (code evaluated at the failing input): in an archive with header
size 2, entries `a` (size 1) then `b` (size 1), and payload bytes
`[88, 89]`, extracting `b` copies the byte at offset 2 — the payload of the
non-matching entry `a` — because the scan never advances the offset past a
non-matching entry; the byte at `header_size + s0 = 3`, which the claim says
is read, is `89`. -/
theorem extract_from_archive_no_skip_eval :
    extract_from_archive [[98]] ⟨1, [], [⟨[[97]], 1⟩, ⟨[[98]], 1⟩], 2⟩ [0, 0, 88, 89] id
        = some [88] ∧
    (([0, 0, 88, 89] : List Nat).drop 3).take 1 = [89] := by
  decide

/-- Claim C2 (code evaluated at the failing input): for a header with one
entry whose path byte 255 is not valid UTF-8, `gen_header` reports the path
as failed, yet the output bytes contain entry count 1 (offset 17) and the
8-byte size field (value 7, offset 25) of the failed entry — 33 bytes in
total instead of the 25 the claim requires. -/
theorem gen_header_failed_path_bytes_eval :
    gen_header ⟨1, [], [⟨[[255]], 7⟩], 0⟩ []
        = ([1, 33, 0, 0, 0, 0, 0, 0, 0,
            0, 0, 0, 0, 0, 0, 0, 0,
            1, 0, 0, 0, 0, 0, 0, 0,
            7, 0, 0, 0, 0, 0, 0, 0], [[[255]]]) ∧
    validUtf8 (joinPath [[255]]) = false := by
  decide

/-- Claim C3 (code evaluated at the failing input): extracting an archive
with header size 2, entries `a` (size 1) and `b` (size 1), payload
`[88, 89]`, where creating the destination for `a` fails, gives `b` the
byte at offset 2 (the payload of `a`) instead of the byte `89` at offset 3:
the skipped entry did not advance the running offset. -/
theorem extract_all_archive_skip_no_advance_eval :
    extract_all_archive ⟨1, [], [⟨[[97]], 1⟩, ⟨[[98]], 1⟩], 2⟩ [9, 9, 88, 89]
        (fun p => decide (p ≠ [[97]])) id
        = some [([[98]], [88])] ∧
    (([9, 9, 88, 89] : List Nat).drop 3).take 1 = [89] := by
  decide

/-- Claim C10 (code evaluated at the failing input): with entries `a`
(size 2) and `b` (size 3) over payload `[65, 66, 67, 68, 69]` after a
2-byte header, extracting `b` writes `[65, 66, 67]` — three bytes starting
at the payload start, not the payload `[67, 68, 69]` of `b` — while
extracting a path that matches no entry succeeds writing zero bytes. -/
theorem extract_from_archive_matches_eval :
    extract_from_archive [[98]] ⟨1, [], [⟨[[97]], 2⟩, ⟨[[98]], 3⟩], 2⟩
        [7, 7, 65, 66, 67, 68, 69] id
        = some [65, 66, 67] ∧
    (([7, 7, 65, 66, 67, 68, 69] : List Nat).drop 4).take 3 = [67, 68, 69] ∧
    extract_from_archive [[99]] ⟨1, [], [⟨[[97]], 2⟩, ⟨[[98]], 3⟩], 2⟩
        [7, 7, 65, 66, 67, 68, 69] id
        = some [] := by
  decide
